import Mathlib

/-!
Verification of the `ns-rules` tool (src/main.rs, src/config.rs) against its
natural-language specification.

Strings are modelled as `List Char` (the sources operate on ASCII byte
offsets; on ASCII text the byte offsets of the Rust code coincide with the
character offsets used here).  The `regex` crate is modelled by a small
abstract syntax (`RElem`) covering exactly the regular-expression fragment
the program can generate — literal characters, the two fixed character
classes `NS_REGEX` / `NS_SEGMENT_REGEX` (always generated with a trailing
`+`), `+` repetition of a literal, and top-level alternation `|` — together
with a parser `parseRegex` standing for `Regex::new` and matching functions
standing for `Regex::is_match` / `Regex::find_iter` (leftmost-first,
greedy, with the iterator's empty-match-advance rule).  Inputs whose
generated pattern falls outside this fragment are mapped to explicit
`unsupported` / `unmodeled` outcomes rather than being given a semantics.

src/ns.rs is dead code: it is not declared as a module of the crate (only
`mod config` exists in main.rs) and does not compile; it is not modelled.
-/

/-- Characters accepted by the generated character class
`NS_SEGMENT_REGEX = [[[:alnum:]]\*\+!\-_\?\$%\&=<>]+` of
`NamespaceMatcher::from_str` (EDN symbol characters, excluding `.`). -/
def isSegClassChar (c : Char) : Bool :=
  c.isAlphanum || c == '*' || c == '+' || c == '!' || c == '-' || c == '_' ||
    c == '?' || c == '$' || c == '%' || c == '&' || c == '=' || c == '<' || c == '>'

/-- Characters accepted by the generated character class
`NS_REGEX = [[[:alnum:]]\.\*\+!\-_\?\$%\&=<>]+` (EDN symbol characters,
including `.`). -/
def isNsClassChar (c : Char) : Bool :=
  isSegClassChar c || c == '.'

/-- The literal source text of the `NS_REGEX` constant of main.rs. -/
def nsClassToken : List Char := "[[[:alnum:]]\\.\\*\\+!\\-_\\?\\$%\\&=<>]+".data

/-- The literal source text of the `NS_SEGMENT_REGEX` constant of main.rs. -/
def segClassToken : List Char := "[[[:alnum:]]\\*\\+!\\-_\\?\\$%\\&=<>]+".data

/-- Model of Rust `str::split(c)` (used as `s.split('.')` in
`NamespaceMatcher::from_str`): splits at every occurrence of `c`,
keeping empty pieces, so the result is always non-empty. -/
def splitOnChar (c : Char) : List Char → List (List Char)
  | [] => [[]]
  | d :: rest =>
    if d = c then [] :: splitOnChar c rest
    else
      match splitOnChar c rest with
      | s :: ss => (d :: s) :: ss
      | [] => [[d]]

/-- Model of Rust `str::rsplit_once(c)`: splits at the last occurrence
of `c`, returning the parts before and after it, or `none` if `c` does
not occur. -/
def rsplit_once : List Char → Char → Option (List Char × List Char)
  | [], _ => none
  | d :: rest, c =>
    match rsplit_once rest c with
    | some (l, r) => some (d :: l, r)
    | none => if d = c then some ([], rest) else none

/-- Model of Rust `str::replace('*', token)`: every `*` character is
replaced by the string `token` (used to splice a character class into a
pattern segment). -/
def replaceStar (seg : List Char) (token : List Char) : List Char :=
  seg.flatMap (fun c => if c = '*' then token else [c])

/-- Model of Rust `str::replace('.', "\\.")` as used by `Rule::compile`:
every `.` is replaced by `\.`; no other character is altered. -/
def escapeDots (l : List Char) : List Char :=
  l.flatMap (fun c => if c = '.' then ['\\', '.'] else [c])

/-- Abstract syntax for the regular-expression fragment generated by the
program: a literal character, one of the two fixed character classes with
their `+` repetition (`clsPlus true` is `NS_SEGMENT_REGEX`, `clsPlus
false` is `NS_REGEX`), or `+` repetition of a literal character. -/
inductive RElem where
  | lit (c : Char)
  | clsPlus (segOnly : Bool)
  | plusLit (c : Char)
deriving DecidableEq, Repr

/-- A regular expression of the modelled fragment: an alternation (`|`)
of concatenations of elements. -/
abbrev Regex := List (List RElem)

/-- Outcomes of `parseRegex`: `invalid` models `Regex::new` returning an
error (which the program turns into a panic via `.expect`);
`unsupported` marks syntax that `Regex::new` may or may not accept but
which lies outside the modelled fragment. -/
inductive ParseErr where
  | invalid
  | unsupported
deriving DecidableEq, Repr

/-- Decidable equality of parse results (used only to let concrete
parser outcomes be checked by `decide`). -/
instance {a b : Type} [DecidableEq a] [DecidableEq b] :
    DecidableEq (Except a b)
  | .ok x, .ok y =>
    if h : x = y then .isTrue (by rw [h]) else .isFalse (by simp [h])
  | .error x, .error y =>
    if h : x = y then .isTrue (by rw [h]) else .isFalse (by simp [h])
  | .ok _, .error _ => .isFalse (by simp)
  | .error _, .ok _ => .isFalse (by simp)

/-- Does the whole of `token` occur at the head of the input? -/
def leadsWith : List Char → List Char → Bool
  | [], _ => true
  | _ :: _, [] => false
  | t :: ts, c :: cs => t == c && leadsWith ts cs

/-- Membership test of the two generated character classes. -/
def inClass (segOnly : Bool) (c : Char) : Bool :=
  if segOnly then isSegClassChar c else isNsClassChar c

/-- Outcome of the quantifier characters `?` `*` `{` of `parseSeqF`: with
no preceding atom, `Regex::new` reports an error (modelled `invalid`);
otherwise the construct lies outside the modelled fragment. -/
def quantNoAtom (acc : List RElem) : Except ParseErr (List RElem) :=
  match acc with
  | [] => .error .invalid
  | _ :: _ => .error .unsupported

/-- The step after a `\\`: a trailing backslash is a regex error; `\\x`
for non-alphanumeric `x` is an identity escape (the program only
generates `\\.`); `\\x` for alphanumeric `x` is a regex escape class
outside the modelled fragment. -/
def escStep (acc : List RElem) : List Char → Except ParseErr (List RElem × List Char)
  | [] => .error .invalid
  | d :: rest2 =>
    if d.isAlphanum then .error .unsupported
    else .ok (.lit d :: acc, rest2)

/-- The step for a `+`: repetition of the preceding literal; `+` after
another repetition is a possessive quantifier (outside the fragment); `+`
with nothing to repeat is an error in `Regex::new`. -/
def plusStep : List RElem → Except ParseErr (List RElem)
  | .lit c2 :: acc2 => .ok (.plusLit c2 :: acc2)
  | .clsPlus _ :: _ => .error .unsupported
  | .plusLit _ :: _ => .error .unsupported
  | [] => .error .invalid

/-- Parser for one alternation-free piece of a generated regex string
(accumulator-passing, accumulator reversed).  `\\x` is handled by
`escStep`, `+` by `plusStep`, `?` `*` `{` by `quantNoAtom`; `[` must
begin one of the two fixed class tokens (the source texts of `NS_REGEX`
and `NS_SEGMENT_REGEX`); the remaining metacharacters are outside the
modelled fragment.  The `fuel` argument only makes the recursion
structural (so that proofs can compute with the parser); every step
consumes at least one character while spending one unit of fuel, so the
fuel supplied by `parseSeq` is never exhausted and the 0-fuel value is
arbitrary (`parseSeqF_mono` below makes this precise). -/
def parseSeqF : Nat → List RElem → List Char → Except ParseErr (List RElem)
  | 0, _, _ => .error .unsupported
  | _ + 1, acc, [] => .ok acc.reverse
  | fuel + 1, acc, c :: rest =>
    if c = '\\' then
      match escStep acc rest with
      | .error e => .error e
      | .ok (acc2, rest2) => parseSeqF fuel acc2 rest2
    else if c = '+' then
      match plusStep acc with
      | .error e => .error e
      | .ok acc2 => parseSeqF fuel acc2 rest
    else if c = '?' || c = '*' || c = '{' then quantNoAtom acc
    else if c = '[' then
      if leadsWith nsClassToken (c :: rest) then
        parseSeqF fuel (.clsPlus false :: acc) (rest.drop (nsClassToken.length - 1))
      else if leadsWith segClassToken (c :: rest) then
        parseSeqF fuel (.clsPlus true :: acc) (rest.drop (segClassToken.length - 1))
      else .error .unsupported
    else if c = '(' || c = ')' || c = ']' || c = '^' || c = '$' ||
        c = '.' || c = '|' then .error .unsupported
    else parseSeqF fuel (.lit c :: acc) rest

/-- The parser with sufficient fuel for its input. -/
def parseSeq (acc : List RElem) (l : List Char) : Except ParseErr (List RElem) :=
  parseSeqF (l.length + 1) acc l

/-- Model of `Regex::new` on the generated fragment: split the pattern at
top-level `|` and parse each alternative. -/
def parseRegex (cs : List Char) : Except ParseErr Regex :=
  (splitOnChar '|' cs).mapM (parseSeq [])

/-- Backtracking matcher: does the element sequence match some prefix of
`s`, and if so how long is the preferred (leftmost-first, greedy) match?
Both `clsPlus` and `plusLit` consume one or more characters; repetition
prefers consuming more (greedy), falling back to the continuation. -/
def matchEnd : List RElem → List Char → Option Nat
  | [], _ => some 0
  | .lit c :: es, d :: s =>
    if c == d then (matchEnd es s).map (· + 1) else none
  | .clsPlus seg :: es, d :: s =>
    if inClass seg d then
      match matchEnd (.clsPlus seg :: es) s with
      | some n => some (n + 1)
      | none => (matchEnd es s).map (· + 1)
    else none
  | .plusLit c :: es, d :: s =>
    if c == d then
      match matchEnd (.plusLit c :: es) s with
      | some n => some (n + 1)
      | none => (matchEnd es s).map (· + 1)
    else none
  | _ :: _, [] => none

/-- Match length at a fixed position for an alternation: alternatives are
tried in order (leftmost-first preference of the regex crate). -/
def matchEndAlts (r : Regex) (s : List Char) : Option Nat :=
  r.findSome? (fun alt => matchEnd alt s)

/-- Model of `Regex::is_match` for one alternative: an unanchored search —
true iff the alternative matches starting at some position. -/
def isMatchAlt (es : List RElem) (s : List Char) : Bool :=
  (List.range (s.length + 1)).any (fun i => (matchEnd es (s.drop i)).isSome)

/-- Model of `Regex::is_match`: true iff some alternative matches at some
position of `s`.  Note: the program compiles its patterns WITHOUT anchors,
so this is substring search, not whole-string matching. -/
def isMatch (r : Regex) (s : List Char) : Bool :=
  r.any (fun alt => isMatchAlt alt s)

/-- Leftmost match of `r` in `s`: the pair (offset of the earliest
position at which some alternative matches, length of the preferred match
there), the regex crate's `find_at` semantics on the fragment. -/
def findRel (r : Regex) (s : List Char) : Option (Nat × Nat) :=
  (List.range (s.length + 1)).findSome?
    (fun j => (matchEndAlts r (s.drop j)).map (fun n => (j, n)))

/-- Model of the regex crate's `find_iter` loop: repeatedly find the
leftmost match at or after `last_end`; a nonempty match advances
`last_end` to its end, an empty match advances one past it and is skipped
when it is adjacent to the previous match's end (`last_match`).  The Rust
iterator terminates because `last_end` strictly increases on every step
and the search stops once `last_end` exceeds the text length; `fuel`
(structurally decreasing, initialised to `s.length + 1` by `findIter`)
bounds that number of steps, so the 0-fuel case is never reached. -/
def findIterAux (r : Regex) (s : List Char) :
    Nat → Nat → Option Nat → List (Nat × Nat)
  | 0, _, _ => []
  | fuel + 1, last_end, last_match =>
    if last_end > s.length then []
    else
      match findRel r (s.drop last_end) with
      | none => []
      | some (j, n) =>
        if n = 0 then
          if last_match = some (last_end + j) then
            findIterAux r s fuel (last_end + j + 1) last_match
          else
            (last_end + j, last_end + j) ::
              findIterAux r s fuel (last_end + j + 1) (some (last_end + j))
        else
          (last_end + j, last_end + j + n) ::
            findIterAux r s fuel (last_end + j + n) (some (last_end + j + n))

/-- Model of `Regex::find_iter`: all non-overlapping matches of `r` in
`s`, left to right, as (start, end) offset pairs. -/
def findIter (r : Regex) (s : List Char) : List (Nat × Nat) :=
  findIterAux r s (s.length + 1) 0 none

/-- A compiled `NamespaceMatcher` is just its regex (the Rust type is a
newtype over `Regex`). -/
abbrev NamespaceMatcher := Regex

/-- Model of `NamespaceMatcher::matches`: `self.0.is_match(namespace)` —
an unanchored regex search over the namespace string. -/
def NamespaceMatcher.matches (m : NamespaceMatcher) (ns : List Char) : Bool :=
  isMatch m ns

/-- Result of `NamespaceMatcher::from_str`.  `err` models the three
validation errors (the `&'static str` messages are not modelled); `panic`
models `Regex::new(..).expect("valid regex")` aborting on a pattern the
regex crate rejects; `unmodeled` marks patterns whose generated regex
falls outside the modelled fragment. -/
inductive FromStrResult where
  | err
  | ok (m : NamespaceMatcher)
  | panic
  | unmodeled
deriving DecidableEq, Repr

/-- The regex text built for a plain (non-recursive) pattern: split on
`.`, replace each `*` by `NS_SEGMENT_REGEX`, join with `\.`. -/
def plainPattern (s : List Char) : List Char :=
  (((splitOnChar '.' s).map (fun seg => replaceStar seg segClassToken)).intersperse
    ['\\', '.']).flatten

/-- The regex text built for a recursive pattern (trailing `.*`): the
head's segments with `*` replaced, then `NS_REGEX`, joined with `\.`. -/
def recursivePattern (head : List Char) : List Char :=
  ((((splitOnChar '.' head).map (fun seg => replaceStar seg segClassToken)) ++
    [nsClassToken]).intersperse ['\\', '.']).flatten

/-- The outcome of `Regex::new(&pattern).expect("valid regex")`: a parse
gives the matcher, a regex error aborts the program (`panic`), and a
pattern outside the modelled fragment is left without a semantics. -/
def regexNewOutcome : Except ParseErr Regex → FromStrResult
  | .ok r => .ok r
  | .error .invalid => .panic
  | .error .unsupported => .unmodeled

/-- Model of `NamespaceMatcher::from_str`: validation (empty / contains a
space / starts or ends with `.`), then pattern construction — if the last
`.`-separated piece is exactly `*`, the recursive form, else the plain
form — then `Regex::new`. -/
def NamespaceMatcher.from_str (s : List Char) : FromStrResult :=
  if s = [] then .err
  else if s.contains ' ' then .err
  else if s.head? = some '.' || s.getLast? = some '.' then .err
  else
    let pattern : List Char :=
      match rsplit_once s '.' with
      | some (head, tail) =>
        if tail = ['*'] then recursivePattern head else plainPattern s
      | none => plainPattern s
    regexNewOutcome (parseRegex pattern)

/-- Model of `ClojureSourceFile`: the namespace string and the file path
stored in one buffer, the namespace occupying `entry[..path_start]` and
the path `entry[path_start..]`. -/
structure ClojureSourceFile where
  entry : List Char
  path_start : Nat
deriving DecidableEq, Repr

/-- Model of `ClojureSourceFile::path`. -/
def ClojureSourceFile.path (f : ClojureSourceFile) : List Char :=
  f.entry.drop f.path_start

/-- Model of `ClojureSourceFile::namespace` (renamed: `namespace` is a
Lean keyword). -/
def ClojureSourceFile.nsOf (f : ClojureSourceFile) : List Char :=
  f.entry.take f.path_start

/-- Model of `Violation` (the `miette` rendering attributes are display
only): the `NamedSource` holds the file path and the full code text;
`snippet` and `ref_location` are (offset, length) spans as in
`SourceSpan`. -/
structure Violation where
  src_path : List Char
  src_code : List Char
  src_ns : List Char
  ref_ns : List Char
  snippet : Nat × Nat
  ref_location : Nat × Nat
deriving DecidableEq, Repr

/-- Model of `Report`. -/
structure Report where
  violations : List Violation
  warnings : List (List Char)
  files_checked : Nat
  rules_matched : Nat
  files_skipped : Nat
deriving DecidableEq, Repr

/-- Model of `Report::new`. -/
def Report.new : Report :=
  { violations := [], warnings := [], files_checked := 0,
    rules_matched := 0, files_skipped := 0 }

/-- Model of `Report::file_skipped`: push the warning and count a skip. -/
def Report.file_skipped (r : Report) (warning : List Char) : Report :=
  { r with warnings := r.warnings ++ [warning],
           files_skipped := r.files_skipped + 1 }

/-- Model of `Report::violation`. -/
def Report.violation (r : Report) (v : Violation) : Report :=
  { r with violations := r.violations ++ [v] }

/-- Model of `Report::rule_matched`. -/
def Report.rule_matched (r : Report) : Report :=
  { r with rules_matched := r.rules_matched + 1 }

/-- Model of `Report::warn`. -/
def Report.warn (r : Report) (warning : List Char) : Report :=
  { r with warnings := r.warnings ++ [warning] }

/-- Model of `Report::exit_status`: 0 when there are no violations, 1
otherwise. -/
def Report.exit_status (r : Report) : Int :=
  if r.violations.isEmpty then 0 else 1

/-- Model of the 5th-forward-line-break scan of `CompiledRule::apply`:
`text.match_indices('\n').nth(k)` — the offset of the (k+1)-th newline of
`text`, if it exists. -/
def nthNewline : Nat → List Char → Option Nat
  | _, [] => none
  | k, c :: rest =>
    if c = '\n' then
      match k with
      | 0 => some 0
      | k + 1 => (nthNewline k rest).map (· + 1)
    else (nthNewline k rest).map (· + 1)

/-- Model of the snippet start computation of `CompiledRule::apply`:
`code[..start].rmatch_indices('\n').nth(4).map(|(i, _)| i + 1).unwrap_or(0)`
— one past the 5th newline counted backwards from `start`, or 0.
(`rmatch_indices` iterates matches from the end, so its `nth(4)` is
`nth(4)` of the reversed prefix, with the index mapped back.) -/
def snippet_start (code : List Char) (start : Nat) : Nat :=
  match nthNewline 4 (code.take start).reverse with
  | some j => ((code.take start).length - 1 - j) + 1
  | none => 0

/-- Model of the snippet end computation of `CompiledRule::apply`:
`code[end..].match_indices('\n').nth(4).map(|(i, _)| i + end).unwrap_or(len)`. -/
def snippet_end (code : List Char) (e : Nat) : Nat :=
  match nthNewline 4 (code.drop e) with
  | some i => i + e
  | none => code.length

/-- The `Violation` value built by `CompiledRule::apply` for one match of
the forbidden-reference regex at byte span [st, en): the reference text is
`code[st..en]`, the snippet span runs from `snippet_start` to
`snippet_end`, and the highlight span is the match itself.  Neither this
constructor nor `apply` takes the CLI `context_lines` option: that option
is parsed in `Options` but never read anywhere in the program. -/
def mkViolation (file : ClojureSourceFile) (code : List Char) (st en : Nat) :
    Violation :=
  { src_path := file.path
    src_code := code
    src_ns := file.nsOf
    ref_ns := (code.take en).drop st
    snippet := (snippet_start code st, snippet_end code en - snippet_start code st)
    ref_location := (st, en - st) }

/-- Model of `CompiledRule`: the guard matcher and the compiled
forbidden-reference regex. -/
structure CompiledRule where
  nsp : NamespaceMatcher
  checker : Regex
deriving DecidableEq, Repr

/-- Model of `CompiledRule::matches`: the guard matcher applied to a
namespace. -/
def CompiledRule.matches (rule : CompiledRule) (ns : List Char) : Bool :=
  rule.nsp.matches ns

/-- Model of `CompiledRule::apply`: for every match of `checker` in
`code` (in `find_iter` order) push one `Violation` onto the report. -/
def CompiledRule.apply (rule : CompiledRule) (file : ClojureSourceFile)
    (code : List Char) (report : Report) : Report :=
  (findIter rule.checker code).foldl
    (fun rep m => rep.violation (mkViolation file code m.1 m.2)) report

/-- Model of `Rule` (field `namespace` renamed to `nsp`: Lean keyword). -/
structure Rule where
  nsp : NamespaceMatcher
  allow : List NamespaceMatcher
deriving DecidableEq, Repr

/-- Model of the `not_allowed` closure of `Rule::compile`: a source file
is forbidden iff its namespace matches no allow pattern and does not
match the rule's own guard pattern. -/
def Rule.not_allowed (rule : Rule) (source_file : ClojureSourceFile) : Bool :=
  let in_allow_list := rule.allow.any (fun ns => ns.matches source_file.nsOf)
  let self_reference := rule.nsp.matches source_file.nsOf
  !in_allow_list && !self_reference

/-- The forbidden namespaces computed inside `Rule::compile`:
`source_files.iter().filter(not_allowed).map(namespace)`. -/
def Rule.forbidden_namespaces (rule : Rule)
    (source_files : List ClojureSourceFile) : List (List Char) :=
  (source_files.filter (fun f => rule.not_allowed f)).map ClojureSourceFile.nsOf

/-- The forbidden-reference regex text and its compilation, as in
`Rule::compile`: join the forbidden namespaces with `|`, then escape
every `.`, then `Regex::new`. -/
def compileChecker (forbidden : List (List Char)) : Except ParseErr Regex :=
  parseRegex (escapeDots ((forbidden.intersperse "|".data).flatten))

/-- Model of `Rule::compile`: `none` models the `.expect("valid regex")`
panic (or an unmodelled pattern); otherwise the compiled rule keeps the
guard matcher and the forbidden-reference regex. -/
def Rule.compile (rule : Rule) (source_files : List ClojureSourceFile) :
    Option CompiledRule :=
  match compileChecker (rule.forbidden_namespaces source_files) with
  | .ok checker => some { nsp := rule.nsp, checker := checker }
  | .error _ => none

/-- The read-failure warning text of `apply_rules`:
`format!("failed to read file {}: {}", path, error)`. -/
def readFailMsg (file : ClojureSourceFile) (error : List Char) : List Char :=
  "failed to read file ".data ++ file.path ++ ": ".data ++ error

/-- The body of the matched-rule branch of `apply_rules`: count the rule
as matched, then read the file (the read collaborator is a parameter);
on success scan it, on failure record the warning and skip. -/
def applyMatchedRule (read : List Char → Except (List Char) (List Char))
    (rule : CompiledRule) (file : ClojureSourceFile) (report : Report) :
    Report :=
  let report := report.rule_matched
  match read file.path with
  | .ok code => rule.apply file code report
  | .error error => report.file_skipped (readFailMsg file error)

/-- The inner rule loop of `apply_rules` for one file: scan the rules in
declared order; at the first whose guard matches the file's namespace,
run `applyMatchedRule` and stop (the `break`); if none matches, the
report is returned unchanged. -/
def processFile (read : List Char → Except (List Char) (List Char))
    (rules : List CompiledRule) (file : ClojureSourceFile)
    (report : Report) : Report :=
  match rules with
  | [] => report
  | rule :: rest =>
    if rule.matches file.nsOf then applyMatchedRule read rule file report
    else processFile read rest file report

/-- Model of `apply_rules`: the outer loop over source files. -/
def apply_rules (read : List Char → Except (List Char) (List Char))
    (rules : List CompiledRule) (source_files : List ClojureSourceFile)
    (report : Report) : Report :=
  source_files.foldl (fun rep file => processFile read rules file rep) report

/-- Minimal model of `edn_rs::Edn` — only the shapes config.rs inspects. -/
inductive Edn where
  | symbol (s : List Char)
  | vector (items : List Edn)
  | mapForm (entries : List (List Char × Edn))
  | str (s : List Char)
  | other
deriving Repr

/-- Minimal model of `config::Problem` — only the constructor reachable
from `parse_rule`; the formatted detail strings are not modelled. -/
inductive Problem where
  | badRule (ns_pattern : List Char)
deriving DecidableEq, Repr

/-- Lookup in the `BTreeMap<String, Edn>` of a parsed rule body
(`rule.remove(":restrict-to")` only reads the entry). -/
def ednLookup (key : List Char) (m : List (List Char × Edn)) : Option Edn :=
  (m.find? (fun e => e.1 == key)).map (fun e => e.2)

/-- Outcome of parsing a `:restrict-to` vector via `expect_ns_symbol`:
a `Problem`, a panic or out-of-fragment pattern inside
`NamespaceMatcher::from_str` (`crashed`), or the parsed matchers. -/
inductive AllowParse where
  | failed (p : Problem)
  | crashed
  | parsed (ms : List NamespaceMatcher)

/-- Model of mapping `expect_ns_symbol` over the `:restrict-to` vector and
collecting the `Result`s (short-circuiting at the first failure). -/
def parseAllowList (ns_pattern : List Char) : List Edn → AllowParse
  | [] => .parsed []
  | .symbol s :: rest =>
    match NamespaceMatcher.from_str s with
    | .ok m =>
      match parseAllowList ns_pattern rest with
      | .parsed ms => .parsed (m :: ms)
      | other => other
    | .err => .failed (.badRule ns_pattern)
    | _ => .crashed
  | _ :: _ => .failed (.badRule ns_pattern)

/-- Outcome of `config::parse_rule`: `Result<Option<Rule>, Problem>`, plus
`crashed` for panics / unmodelled patterns inside `from_str`. -/
inductive ParseRuleOutcome where
  | failed (p : Problem)
  | crashed
  | parsed (r : Option Rule)

/-- Model of `config::parse_rule`: parse the guard pattern; read
`:restrict-to` (absent key, or a present vector whose parsed list is
empty, yields no allow-list); a rule is produced only when the allow-list
is non-empty (`allow_list.map(|allow| Rule { .. })` on an `Option`). -/
def parse_rule (ns_pattern : List Char) (rule : List (List Char × Edn)) :
    ParseRuleOutcome :=
  match NamespaceMatcher.from_str ns_pattern with
  | .err => .failed (.badRule ns_pattern)
  | .panic => .crashed
  | .unmodeled => .crashed
  | .ok ns_matcher =>
    match ednLookup ":restrict-to".data rule with
    | some (.vector allow_list) =>
      match parseAllowList ns_pattern allow_list with
      | .failed p => .failed p
      | .crashed => .crashed
      | .parsed ms =>
        let allowOpt : Option (List NamespaceMatcher) :=
          if ms.isEmpty then none else some ms
        .parsed (allowOpt.map (fun allow => { nsp := ns_matcher, allow := allow }))
    | some _ => .failed (.badRule ns_pattern)
    | none => .parsed none

/-- An ASCII apostrophe, written by code point (used in warning texts that
quote a pattern). -/
def quoteChar : Char := Char.ofNat 39

/-- The `read_file` warning for a rule that parsed to `None`:
`format!("the rule for '{}' has no effect", ns_pattern)`. -/
def noEffectMsg (ns_pattern : List Char) : List Char :=
  "the rule for ".data ++ [quoteChar] ++ ns_pattern ++ [quoteChar] ++
    " has no effect".data

/-- Outcome of one iteration of the rule loop of `config::read_file` for a
`[Symbol, Map]` rule definition: a configuration error aborts the whole
run (`aborted`), otherwise the accumulated rule list and report. -/
inductive RuleStep where
  | aborted (p : Problem)
  | crashed
  | stepped (rules : List Rule) (report : Report)

/-- Model of the `[Edn::Symbol, Edn::Map]` arm of the rule loop of
`config::read_file`: a parsed rule is pushed; a rule that parsed to
`None` is dropped and the no-effect warning naming its guard pattern is
pushed on the report. -/
def handleRuleForm (ns_pattern : List Char) (ruleMap : List (List Char × Edn))
    (parsed_rules : List Rule) (report : Report) : RuleStep :=
  match parse_rule ns_pattern ruleMap with
  | .failed p => .aborted p
  | .crashed => .crashed
  | .parsed (some rule) => .stepped (parsed_rules ++ [rule]) report
  | .parsed none => .stepped parsed_rules (report.warn (noEffectMsg ns_pattern))

/-- Characters that the modelled regex fragment treats as literals (and
that the regex crate also treats as literals outside character classes):
ASCII alphanumerics and the EDN symbol characters `- _ ! % & = < >`.
Together with `.` (which the program escapes) these are exactly the
namespace characters free of regex metacharacter behaviour. -/
def isLitSafe (c : Char) : Bool :=
  c.isAlphanum || c == '-' || c == '_' || c == '!' || c == '%' || c == '&' ||
    c == '=' || c == '<' || c == '>'

/-- A safe literal character or the (escaped) dot. -/
def isLitSafeDot (c : Char) : Bool :=
  isLitSafe c || c == '.'

/-- Fixture for the empty-forbidden-set scenario: a corpus of one file
with namespace `a` and path `a.clj`. -/
def c1File : ClojureSourceFile :=
  { entry := "aa.clj".data, path_start := 1 }

/-- Fixture: a rule whose guard is the pattern `a` and whose allow-list
is `[a]` — over the corpus `[c1File]` its forbidden set is empty. -/
def c1Rule : Rule :=
  { nsp := [[RElem.lit 'a']], allow := [[[RElem.lit 'a']]] }

/-- The empty element sequence matches the empty prefix of anything. -/
theorem matchEnd_nil (s : List Char) : matchEnd [] s = some 0 := by
  cases s <;> rfl

/-- `leadsWith` decides list-prefix. -/
theorem leadsWith_eq_true_iff (t s : List Char) :
    leadsWith t s = true ↔ t <+: s := by
  induction t generalizing s with
  | nil => simp [leadsWith]
  | cons a t ih =>
    cases s with
    | nil => simp [leadsWith]
    | cons b s =>
      simp only [leadsWith, Bool.and_eq_true, beq_iff_eq, ih,
        List.cons_prefix_cons]

/-- A run of literal elements followed by a continuation matches a prefix
of `s` iff the literals are a prefix of `s` and the continuation matches
a prefix of the rest. -/
theorem matchEnd_lits_isSome (cs : List Char) (es : List RElem) (s : List Char) :
    (matchEnd (cs.map RElem.lit ++ es) s).isSome =
      (leadsWith cs s && (matchEnd es (s.drop cs.length)).isSome) := by
  induction cs generalizing s with
  | nil => simp [leadsWith]
  | cons c cs ih =>
    cases s with
    | nil => simp [matchEnd, leadsWith]
    | cons d s =>
      simp only [List.map_cons, List.cons_append, matchEnd, leadsWith,
        List.length_cons, List.drop_succ_cons]
      by_cases h : c = d
      · simp [h, ih]
      · have hb : (c == d) = false := by simp [h]
        simp [hb]

/-- A single class element matches a prefix of `c :: s` iff `c` is in the
class (one character suffices; the class is one-or-more). -/
theorem matchEnd_clsPlus_cons_isSome (b : Bool) (c : Char) (s : List Char) :
    (matchEnd [RElem.clsPlus b] (c :: s)).isSome = inClass b c := by
  by_cases h : inClass b c = true
  · simp only [matchEnd, h, if_pos]
    cases hm : matchEnd [RElem.clsPlus b] s with
    | some n => simp [h]
    | none => simp [h, matchEnd_nil]
  · simp only [Bool.not_eq_true] at h
    simp [matchEnd, h]

/-- A single class element never matches a prefix of the empty string. -/
theorem matchEnd_clsPlus_nil (b : Bool) :
    matchEnd [RElem.clsPlus b] [] = none := rfl

/-- Unfolds the unanchored one-alternative search to an existential over
start positions. -/
theorem isMatchAlt_eq_true_iff (es : List RElem) (M : List Char) :
    isMatchAlt es M = true ↔
      ∃ i, i ≤ M.length ∧ (matchEnd es (M.drop i)).isSome = true := by
  simp only [isMatchAlt, List.any_eq_true, List.mem_range, Nat.lt_succ_iff]

/-- The bridge between position-indexed prefix matching and the infix
relation. -/
theorem exists_drop_iff_infix (cs M : List Char) :
    (∃ i, i ≤ M.length ∧ cs <+: M.drop i) ↔ cs <:+: M := by
  constructor
  · rintro ⟨i, _hi, t, ht⟩
    exact ⟨M.take i, t, by rw [List.append_assoc, ht, List.take_append_drop]⟩
  · rintro ⟨pre, suf, h⟩
    refine ⟨pre.length, ?_, suf, ?_⟩
    · rw [← h]
      simp only [List.length_append]
      omega
    · rw [← h, List.append_assoc, List.drop_left]

/-- A one-alternative regex of literal elements is an unanchored literal
substring search: it fires on `M` exactly when `M` contains the literal
string. -/
theorem lits_isMatch_iff (cs M : List Char) :
    isMatch [cs.map RElem.lit] M = true ↔ cs <:+: M := by
  rw [← exists_drop_iff_infix]
  simp only [isMatch, List.any_cons, List.any_nil, Bool.or_false,
    isMatchAlt_eq_true_iff]
  have h : ∀ s : List Char, (matchEnd (cs.map RElem.lit) s).isSome =
      (leadsWith cs s && (matchEnd [] (s.drop cs.length)).isSome) := by
    intro s
    have := matchEnd_lits_isSome cs [] s
    simpa using this
  constructor
  · rintro ⟨i, hi, hm⟩
    rw [h] at hm
    simp only [matchEnd_nil, Option.isSome_some, Bool.and_true] at hm
    exact ⟨i, hi, (leadsWith_eq_true_iff _ _).mp hm⟩
  · rintro ⟨i, hi, hp⟩
    refine ⟨i, hi, ?_⟩
    rw [h]
    simp [matchEnd_nil, (leadsWith_eq_true_iff _ _).mpr hp]

/-- A one-alternative regex of literals followed by the `NS_REGEX` class
fires on `M` exactly when `M` contains the literal string followed by at
least one namespace character. -/
theorem lits_cls_isMatch_iff (cs M : List Char) :
    isMatch [cs.map RElem.lit ++ [RElem.clsPlus false]] M = true ↔
      ∃ pre c suf, M = pre ++ cs ++ c :: suf ∧ isNsClassChar c = true := by
  simp only [isMatch, List.any_cons, List.any_nil, Bool.or_false,
    isMatchAlt_eq_true_iff]
  constructor
  · rintro ⟨i, hi, hm⟩
    rw [matchEnd_lits_isSome] at hm
    simp only [Bool.and_eq_true] at hm
    obtain ⟨hlead, hcls⟩ := hm
    obtain ⟨t, ht⟩ := (leadsWith_eq_true_iff _ _).mp hlead
    cases hcase : (M.drop i).drop cs.length with
    | nil => rw [hcase, matchEnd_clsPlus_nil] at hcls; simp at hcls
    | cons c suf =>
      rw [hcase] at hcls
      rw [Option.isSome_iff_exists] at hcls
      have hin : inClass false c = true := by
        rw [← matchEnd_clsPlus_cons_isSome false c suf]
        exact Option.isSome_iff_exists.mpr hcls
      refine ⟨M.take i, c, suf, ?_, by simpa [inClass] using hin⟩
      have h3 : t = c :: suf := by
        have h4 : t = (M.drop i).drop cs.length := by
          rw [← ht, List.drop_left]
        rw [h4, hcase]
      conv_lhs => rw [(List.take_append_drop i M).symm]
      rw [← ht, h3]
      simp [List.append_assoc]
  · rintro ⟨pre, c, suf, hM, hc⟩
    refine ⟨pre.length, ?_, ?_⟩
    · rw [hM]
      simp only [List.length_append, List.append_assoc]
      omega
    · have hdrop : M.drop pre.length = cs ++ c :: suf := by
        rw [hM, List.append_assoc, List.drop_left]
      rw [matchEnd_lits_isSome, hdrop]
      have hlead : leadsWith cs (cs ++ c :: suf) = true :=
        (leadsWith_eq_true_iff _ _).mpr ⟨c :: suf, rfl⟩
      rw [List.drop_left]
      simp [hlead, matchEnd_clsPlus_cons_isSome, inClass, hc]

/-- Safe literal characters coincide with no regex metacharacter of the
parser (`decide`-per-character: alphanumerics and the eight symbol
characters are distinct from every special character). -/
theorem litSafe_not_special (c : Char) (h : isLitSafe c = true) :
    c ≠ '\\' ∧ c ≠ '+' ∧ c ≠ '?' ∧ c ≠ '*' ∧ c ≠ '{' ∧ c ≠ '[' ∧ c ≠ '(' ∧
      c ≠ ')' ∧ c ≠ ']' ∧ c ≠ '^' ∧ c ≠ '$' ∧ c ≠ '.' ∧ c ≠ '|' ∧ c ≠ ' ' := by
  refine ⟨?_, ?_, ?_, ?_, ?_, ?_, ?_, ?_, ?_, ?_, ?_, ?_, ?_, ?_⟩ <;>
    (rintro rfl; exact absurd h (by decide))

/-- Fuel irrelevance: any two sufficient fuel values give the same parse
(each parser step consumes at least one input character). -/
theorem parseSeqF_mono (f1 : Nat) :
    ∀ f2 acc l, l.length < f1 → l.length < f2 →
      parseSeqF f1 acc l = parseSeqF f2 acc l := by
  induction f1 with
  | zero => intro f2 acc l hl; omega
  | succ a ih =>
    intro f2 acc l hl1 hl2
    cases f2 with
    | zero => omega
    | succ b =>
      cases l with
      | nil => simp only [parseSeqF]
      | cons c rest =>
        simp only [List.length_cons] at hl1 hl2
        simp only [parseSeqF]
        split_ifs with h1 h2 h3 h4 h5 h6 h7
        · cases rest with
          | nil => simp only [escStep]
          | cons d rest2 =>
            simp only [List.length_cons] at hl1 hl2
            by_cases hd : d.isAlphanum = true
            · simp [escStep, hd]
            · simp only [Bool.not_eq_true] at hd
              simp [escStep, hd]
              exact ih b _ rest2 (by omega) (by omega)
        · cases acc with
          | nil => simp [plusStep]
          | cons e acc2 =>
            cases e with
            | lit c2 =>
              simp [plusStep]
              exact ih b _ rest (by omega) (by omega)
            | clsPlus s2 => simp [plusStep]
            | plusLit c2 => simp [plusStep]
        · rfl
        · refine ih b _ _ ?_ ?_ <;> (simp only [List.length_drop]; omega)
        · refine ih b _ _ ?_ ?_ <;> (simp only [List.length_drop]; omega)
        · rfl
        · rfl
        · exact ih b _ rest (by omega) (by omega)

/-- One parser step on a safe literal character. -/
theorem parseSeq_lit_step (acc : List RElem) (c : Char) (rest : List Char)
    (h : isLitSafe c = true) :
    parseSeq acc (c :: rest) = parseSeq (RElem.lit c :: acc) rest := by
  obtain ⟨h1, h2, h3, h4, h5, h6, h7, h8, h9, h10, h11, h12, h13, _⟩ :=
    litSafe_not_special c h
  simp only [parseSeq, List.length_cons, parseSeqF]
  simp [h1, h2, h3, h4, h5, h6, h7, h8, h9, h10, h11, h12, h13]

/-- One parser step on an escaped non-alphanumeric character. -/
theorem parseSeq_escape_step (acc : List RElem) (d : Char) (rest : List Char)
    (hd : d.isAlphanum = false) :
    parseSeq acc ('\\' :: d :: rest) = parseSeq (RElem.lit d :: acc) rest := by
  simp only [parseSeq, List.length_cons, parseSeqF]
  simp [escStep, hd]
  exact parseSeqF_mono _ _ _ rest (by omega) (by omega)

/-- Parsing a string of safe literal characters with dots escaped pushes
the corresponding literal elements and continues. -/
theorem parseSeq_escaped_lits (cs : List Char)
    (h : ∀ c ∈ cs, isLitSafeDot c = true) (acc : List RElem) (rest : List Char) :
    parseSeq acc (escapeDots cs ++ rest) =
      parseSeq ((cs.map RElem.lit).reverse ++ acc) rest := by
  induction cs generalizing acc with
  | nil => simp [escapeDots]
  | cons c cs ih =>
    have hc : isLitSafeDot c = true := h c (List.mem_cons_self c cs)
    have hrest : ∀ x ∈ cs, isLitSafeDot x = true :=
      fun x hx => h x (List.mem_cons_of_mem c hx)
    simp only [isLitSafeDot, Bool.or_eq_true, beq_iff_eq] at hc
    rcases hc with hc | hc
    · have hstep : escapeDots (c :: cs) ++ rest = c :: (escapeDots cs ++ rest) := by
        have hne : c ≠ '.' := (litSafe_not_special c hc).2.2.2.2.2.2.2.2.2.2.2.1
        simp [escapeDots, hne]
      rw [hstep, parseSeq_lit_step _ _ _ hc, ih hrest]
      simp [List.append_assoc]
    · subst hc
      have hstep : escapeDots ('.' :: cs) ++ rest =
          '\\' :: '.' :: (escapeDots cs ++ rest) := by
        simp [escapeDots]
      rw [hstep, parseSeq_escape_step _ _ _ (by decide), ih hrest]
      simp [List.append_assoc]

/-- Finishing the parse: an empty remainder returns the reversed
accumulator. -/
theorem parseSeq_nil (acc : List RElem) : parseSeq acc [] = .ok acc.reverse := rfl

/-- Consuming the `NS_REGEX` class token mid-parse. -/
theorem parseSeq_nsToken_step (acc : List RElem) (rest : List Char) :
    parseSeq acc (nsClassToken ++ rest) = parseSeq (RElem.clsPlus false :: acc) rest := by
  simp only [parseSeq, nsClassToken]
  simp [parseSeqF, leadsWith, List.length_append]
  exact parseSeqF_mono _ _ _ rest (by omega) (by omega)

/-- `splitOnChar` never returns an empty list of pieces. -/
theorem splitOnChar_ne_nil (c : Char) (l : List Char) : splitOnChar c l ≠ [] := by
  cases l with
  | nil => simp [splitOnChar]
  | cons d rest =>
    simp only [splitOnChar]
    split_ifs
    · simp
    · cases h : splitOnChar c rest <;> simp

/-- Splitting a string that does not contain the separator returns the
whole string as the only piece. -/
theorem splitOnChar_no_sep (c : Char) (l : List Char)
    (h : ∀ x ∈ l, x ≠ c) : splitOnChar c l = [l] := by
  induction l with
  | nil => rfl
  | cons d rest ih =>
    have hd : d ≠ c := h d (List.mem_cons_self d rest)
    have hrest : ∀ x ∈ rest, x ≠ c := fun x hx => h x (List.mem_cons_of_mem d hx)
    simp only [splitOnChar, hd, if_false, ih hrest]

/-- `replaceStar` is the identity on star-free strings. -/
theorem replaceStar_no_star (seg tok : List Char)
    (h : ∀ x ∈ seg, x ≠ '*') : replaceStar seg tok = seg := by
  induction seg with
  | nil => rfl
  | cons d rest ih =>
    have hd : d ≠ '*' := h d (List.mem_cons_self d rest)
    have hrest : ∀ x ∈ rest, x ≠ '*' := fun x hx => h x (List.mem_cons_of_mem d hx)
    simp [replaceStar, hd] at ih ⊢
    exact ih hrest

/-- Prepending a character to the first piece prepends it to the joined
result. -/
theorem flatten_intersperse_cons_head (sep fu : List Char) (c : Char)
    (L : List (List Char)) :
    (((c :: fu) :: L).intersperse sep).flatten =
      c :: ((fu :: L).intersperse sep).flatten := by
  cases L with
  | nil => simp
  | cons b L2 => simp [List.intersperse_cons_cons]

/-- An empty first piece contributes exactly one separator. -/
theorem flatten_intersperse_nil_head (sep : List Char) (L : List (List Char))
    (h : L ≠ []) :
    (([] :: L).intersperse sep).flatten = sep ++ (L.intersperse sep).flatten := by
  cases L with
  | nil => exact absurd rfl h
  | cons b L2 => simp [List.intersperse_cons_cons]

/-- On star-free strings the plain pattern construction coincides with
dot-escaping. -/
theorem plainPattern_no_star (s : List Char) (h : ∀ x ∈ s, x ≠ '*') :
    plainPattern s = escapeDots s := by
  induction s with
  | nil => rfl
  | cons c rest ih =>
    have hrest : ∀ x ∈ rest, x ≠ '*' := fun x hx => h x (List.mem_cons_of_mem c hx)
    by_cases hc : c = '.'
    · subst hc
      have hsdot : splitOnChar '.' ('.' :: rest) = [] :: splitOnChar '.' rest := by
        simp [splitOnChar]
      simp only [plainPattern, hsdot, List.map_cons]
      have hsplit : ∃ u us, splitOnChar '.' rest = u :: us := by
        cases hs : splitOnChar '.' rest with
        | nil => exact absurd hs (splitOnChar_ne_nil '.' rest)
        | cons u us => exact ⟨u, us, rfl⟩
      obtain ⟨u, us, hu⟩ := hsplit
      have hmap : (splitOnChar '.' rest).map (fun seg => replaceStar seg segClassToken) ≠ [] := by
        rw [hu]; simp
      have heq : replaceStar [] segClassToken = [] := rfl
      rw [heq, flatten_intersperse_nil_head _ _ hmap]
      have : escapeDots ('.' :: rest) = ['\\', '.'] ++ escapeDots rest := by
        simp [escapeDots]
      rw [this, ← ih hrest]
      rfl
    · have hstar : c ≠ '*' := h c (List.mem_cons_self c rest)
      have hsc : splitOnChar '.' (c :: rest) =
          match splitOnChar '.' rest with
          | s :: ss => (c :: s) :: ss
          | [] => [[c]] := by
        simp [splitOnChar, hc]
      cases hs : splitOnChar '.' rest with
      | nil => exact absurd hs (splitOnChar_ne_nil '.' rest)
      | cons u us =>
        rw [hs] at hsc
        simp only [plainPattern, hsc, List.map_cons]
        have hru : replaceStar (c :: u) segClassToken =
            c :: replaceStar u segClassToken := by
          simp [replaceStar, hstar]
        rw [hru, flatten_intersperse_cons_head]
        have hesc : escapeDots (c :: rest) = c :: escapeDots rest := by
          simp [escapeDots, hc]
        rw [hesc, ← ih hrest]
        simp only [plainPattern, hs, List.map_cons]

/-- Joining pieces with a trailing extra piece appends one separator and
that piece. -/
theorem intersperse_append_single (sep y : List Char) (L : List (List Char))
    (h : L ≠ []) :
    ((L ++ [y]).intersperse sep).flatten =
      (L.intersperse sep).flatten ++ sep ++ y := by
  induction L with
  | nil => exact absurd rfl h
  | cons a L2 ih =>
    cases L2 with
    | nil => simp [List.intersperse_cons_cons, List.append_assoc]
    | cons b L3 =>
      have hne : b :: L3 ≠ [] := by simp
      simp only [List.cons_append, List.intersperse_cons_cons,
        List.flatten_cons] at ih ⊢
      rw [ih hne]
      simp [List.append_assoc]

/-- The recursive pattern text is the plain pattern of the head followed
by an escaped dot and the `NS_REGEX` class token. -/
theorem recursivePattern_eq (head : List Char) :
    recursivePattern head = plainPattern head ++ ['\\', '.'] ++ nsClassToken := by
  have hmap : (splitOnChar '.' head).map
      (fun seg => replaceStar seg segClassToken) ≠ [] := by
    cases hs : splitOnChar '.' head with
    | nil => exact absurd hs (splitOnChar_ne_nil '.' head)
    | cons u us => simp
  simp only [recursivePattern, plainPattern]
  rw [intersperse_append_single _ _ _ hmap]

/-- Splitting at the last separator of `p ++ [c, x]` (with `x ≠ c` and
any `p`) yields `(p, [x])`. -/
theorem rsplit_once_append (p : List Char) (c x : Char) (hx : x ≠ c) :
    rsplit_once (p ++ [c, x]) c = some (p, [x]) := by
  induction p with
  | nil => simp [rsplit_once, hx]
  | cons d p2 ih => simp [rsplit_once, ih]

/-- A successful `rsplit_once` decomposes its input. -/
theorem rsplit_once_eq (s : List Char) (c : Char) (l r : List Char)
    (h : rsplit_once s c = some (l, r)) : s = l ++ c :: r := by
  induction s generalizing l r with
  | nil => simp [rsplit_once] at h
  | cons d rest ih =>
    simp only [rsplit_once] at h
    cases hr : rsplit_once rest c with
    | some lr =>
      rw [hr] at h
      obtain ⟨l2, r2⟩ := lr
      simp only [Option.some.injEq, Prod.mk.injEq] at h
      obtain ⟨h1, h2⟩ := h
      rw [← h1, ← h2]
      simp [ih l2 r2 hr]
    | none =>
      rw [hr] at h
      by_cases hd : d = c
      · subst hd
        rw [if_pos rfl] at h
        cases h
        simp
      · simp [hd] at h

/-- Characters of a dot-escaped string: the escape backslash or an
original character. -/
theorem mem_escapeDots (l : List Char) (x : Char) (h : x ∈ escapeDots l) :
    x = '\\' ∨ x ∈ l := by
  simp only [escapeDots, List.mem_flatMap] at h
  obtain ⟨c, hc, hx⟩ := h
  by_cases hcd : c = '.'
  · rw [if_pos hcd] at hx
    simp only [List.mem_cons, List.not_mem_nil, or_false] at hx
    rcases hx with hx | hx
    · exact Or.inl hx
    · subst hcd hx
      exact Or.inr hc
  · rw [if_neg hcd] at hx
    simp only [List.mem_singleton] at hx
    subst hx
    exact Or.inr hc

/-- `Regex::new` on a bar-free pattern parses a single alternative. -/
theorem parseRegex_single (p : List Char) (h : ∀ x ∈ p, x ≠ '|') :
    parseRegex p =
      match parseSeq [] p with
      | .ok es => .ok [es]
      | .error e => .error e := by
  simp only [parseRegex, splitOnChar_no_sep '|' p h, List.mapM_cons,
    List.mapM_nil]
  cases hp : parseSeq [] p <;> rfl

/-- `from_str` on a star-free pattern of safe characters (not empty, no
spaces, no edge dots) compiles to the anchored-nowhere literal regex of
the pattern characters. -/
theorem from_str_plain (N : List Char) (hne : N ≠ [])
    (hall : ∀ c ∈ N, isLitSafeDot c = true)
    (hhead : N.head? ≠ some '.') (hlast : N.getLast? ≠ some '.') :
    NamespaceMatcher.from_str N = .ok [N.map RElem.lit] := by
  have hnostar : ∀ x ∈ N, x ≠ '*' := by
    intro x hx hstar
    have := hall x hx
    rw [hstar] at this
    simp [isLitSafeDot, isLitSafe] at this
  have hnosp : N.contains ' ' = false := by
    by_contra hc
    simp only [Bool.not_eq_false] at hc
    have hmem : (' ' : Char) ∈ N := by simpa using hc
    have := hall _ hmem
    simp [isLitSafeDot, isLitSafe] at this
  have hnobar : ∀ x ∈ escapeDots N, x ≠ '|' := by
    intro x hx hbar
    rcases mem_escapeDots N x hx with h | h
    · rw [hbar] at h; cases h
    · have := hall x h
      rw [hbar] at this
      simp [isLitSafeDot, isLitSafe] at this
  have hpat : ∀ pr : List Char × List Char, rsplit_once N '.' = some pr →
      pr.2 ≠ ['*'] := by
    rintro ⟨hd, tl⟩ hr hstar
    simp only at hstar
    subst hstar
    have : ('*' : Char) ∈ N := by
      rw [rsplit_once_eq N '.' hd ['*'] hr]
      simp
    exact hnostar '*' this rfl
  have hparse : parseRegex (plainPattern N) = .ok [N.map RElem.lit] := by
    rw [plainPattern_no_star N hnostar, parseRegex_single _ hnobar]
    have : parseSeq [] (escapeDots N) = .ok (N.map RElem.lit) := by
      have h0 := parseSeq_escaped_lits N hall [] []
      rw [List.append_nil] at h0
      rw [h0, parseSeq_nil]
      simp
    rw [this]
  simp only [NamespaceMatcher.from_str, hne, hnosp, if_false]
  have hcond : (N.head? = some '.' || N.getLast? = some '.') = False := by
    simp [hhead, hlast]
  simp only [hcond, if_false]
  cases hr : rsplit_once N '.' with
  | none =>
    simp [hparse, regexNewOutcome]
  | some pr =>
    obtain ⟨hd, tl⟩ := pr
    have hne2 : tl ≠ ['*'] := hpat (hd, tl) hr
    simp [hne2, hparse, regexNewOutcome]

/-- `from_str` on a recursive pattern `P.*` with a star-free safe head
compiles to the literal elements of `P` followed by an escaped dot and
the one-or-more `NS_REGEX` class. -/
theorem from_str_recursive (P : List Char) (hne : P ≠ [])
    (hall : ∀ c ∈ P, isLitSafeDot c = true)
    (hhead : P.head? ≠ some '.') :
    NamespaceMatcher.from_str (P ++ ['.', '*']) =
      .ok [P.map RElem.lit ++ [RElem.lit '.', RElem.clsPlus false]] := by
  obtain ⟨c0, P0, rfl⟩ : ∃ c0 P0, P = c0 :: P0 := by
    cases P with
    | nil => exact absurd rfl hne
    | cons a b => exact ⟨a, b, rfl⟩
  set P := c0 :: P0 with hP
  have hs_ne : P ++ ['.', '*'] ≠ [] := by simp [hP]
  have hnostar : ∀ x ∈ P, x ≠ '*' := by
    intro x hx hstar
    have := hall x hx
    rw [hstar] at this
    simp [isLitSafeDot, isLitSafe] at this
  have hnosp : (P ++ ['.', '*']).contains ' ' = false := by
    by_contra hc
    simp only [Bool.not_eq_false] at hc
    have hmem : (' ' : Char) ∈ P ++ ['.', '*'] := by simpa using hc
    simp only [List.mem_append, List.mem_cons, List.not_mem_nil] at hmem
    rcases hmem with hmem | hmem
    · have := hall _ hmem
      simp [isLitSafeDot, isLitSafe] at this
    · simp at hmem
  have hhead2 : (P ++ ['.', '*']).head? = some c0 := by simp [hP]
  have hlast2 : (P ++ ['.', '*']).getLast? = some '*' := by
    rw [List.getLast?_append]
    rfl
  have hc0 : c0 ≠ '.' := by
    intro hc
    apply hhead
    simp [hP, hc]
  have hcond : ((P ++ ['.', '*']).head? = some '.' ∨
      (P ++ ['.', '*']).getLast? = some '.') = False := by
    simp only [hhead2, hlast2, Option.some.injEq, eq_iff_iff, iff_false]
    push_neg
    exact ⟨hc0, by decide⟩
  have hr : rsplit_once (P ++ ['.', '*']) '.' = some (P, ['*']) :=
    rsplit_once_append P '.' '*' (by decide)
  have hnobar : ∀ x ∈ recursivePattern P, x ≠ '|' := by
    intro x hx hbar
    rw [recursivePattern_eq, plainPattern_no_star P hnostar] at hx
    simp only [List.mem_append] at hx
    rcases hx with (hx | hx) | hx
    · rcases mem_escapeDots P x hx with h | h
      · rw [hbar] at h; cases h
      · have := hall x h
        rw [hbar] at this
        simp [isLitSafeDot, isLitSafe] at this
    · subst hbar
      simp at hx
    · subst hbar
      have : ∀ y ∈ nsClassToken, y ≠ '|' := by decide
      exact this '|' hx rfl
  have hparse : parseRegex (recursivePattern P) =
      .ok [P.map RElem.lit ++ [RElem.lit '.', RElem.clsPlus false]] := by
    rw [parseRegex_single _ hnobar]
    have hshape : recursivePattern P =
        escapeDots P ++ ('\\' :: '.' :: nsClassToken) := by
      rw [recursivePattern_eq, plainPattern_no_star P hnostar]
      simp [List.append_assoc]
    rw [hshape, parseSeq_escaped_lits P hall]
    rw [parseSeq_escape_step _ _ _ (by decide)]
    have htok : nsClassToken = nsClassToken ++ [] := by simp
    rw [htok, parseSeq_nsToken_step, parseSeq_nil]
    simp
  simp only [NamespaceMatcher.from_str, hs_ne, hnosp, if_false]
  simp only [hhead2, hlast2]
  have hcond2 : (some c0 = some '.' || some '*' = some '.') = false := by
    simp [hc0]
  simp only [hcond2, Bool.false_eq_true, if_false, hr]
  simp [hparse, regexNewOutcome]

/-- If the (k+1)-th newline of `l` is at offset `i`, then `i` is in
range, holds a newline, and exactly `k` newlines precede it. -/
theorem nthNewline_some (k : Nat) (l : List Char) (i : Nat)
    (h : nthNewline k l = some i) :
    i < l.length ∧ l.getD i ' ' = '\n' ∧ (l.take i).count '\n' = k := by
  induction l generalizing k i with
  | nil => simp [nthNewline] at h
  | cons c rest ih =>
    simp only [nthNewline] at h
    by_cases hc : c = '\n'
    · rw [if_pos hc] at h
      cases k with
      | zero =>
        simp only [Option.some.injEq] at h
        subst h
        simp [hc]
      | succ k2 =>
        simp only [Option.map_eq_some'] at h
        obtain ⟨i2, hi2, rfl⟩ := h
        obtain ⟨h1, h2, h3⟩ := ih k2 i2 hi2
        refine ⟨by simp; omega, by simpa using h2, ?_⟩
        simp [List.count_cons, hc, h3]
    · rw [if_neg hc] at h
      simp only [Option.map_eq_some'] at h
      obtain ⟨i2, hi2, rfl⟩ := h
      obtain ⟨h1, h2, h3⟩ := ih k i2 hi2
      refine ⟨by simp; omega, by simpa using h2, ?_⟩
      simp [List.count_cons, hc, h3]

/-- If there is no (k+1)-th newline, `l` has at most `k` newlines. -/
theorem nthNewline_none (k : Nat) (l : List Char)
    (h : nthNewline k l = none) : l.count '\n' ≤ k := by
  induction l generalizing k with
  | nil => simp
  | cons c rest ih =>
    simp only [nthNewline] at h
    by_cases hc : c = '\n'
    · rw [if_pos hc] at h
      cases k with
      | zero => simp at h
      | succ k2 =>
        simp only [Option.map_eq_none'] at h
        have := ih k2 h
        simp [List.count_cons, hc]
        omega
    · rw [if_neg hc] at h
      simp only [Option.map_eq_none'] at h
      have := ih k h
      simp [List.count_cons, hc]
      omega

/-- The rule loop of `apply_rules` is first-match-wins: it acts with the
first rule whose guard matches and ignores the rest; with no match the
report is untouched. -/
theorem processFile_eq_find (read : List Char → Except (List Char) (List Char))
    (rules : List CompiledRule) (file : ClojureSourceFile) (report : Report) :
    processFile read rules file report =
      match rules.find? (fun r => r.matches file.nsOf) with
      | none => report
      | some r => applyMatchedRule read r file report := by
  induction rules with
  | nil => rfl
  | cons r rest ih =>
    simp only [processFile, List.find?_cons]
    by_cases h : r.matches file.nsOf = true
    · simp [h]
    · simp only [Bool.not_eq_true] at h
      simp [h, ih]

/-- Membership in the forbidden-namespace list of a rule over a corpus. -/
theorem mem_forbidden_iff (rule : Rule) (files : List ClojureSourceFile)
    (ns : List Char) :
    ns ∈ rule.forbidden_namespaces files ↔
      ∃ f ∈ files, f.nsOf = ns ∧
        rule.allow.any (fun a => a.matches ns) = false ∧
        rule.nsp.matches ns = false := by
  simp only [Rule.forbidden_namespaces, List.mem_map, List.mem_filter,
    Rule.not_allowed, Bool.and_eq_true, Bool.not_eq_true']
  constructor
  · rintro ⟨f, ⟨hf, ha, hs⟩, rfl⟩
    exact ⟨f, hf, rfl, ha, hs⟩
  · rintro ⟨f, hf, rfl, ha, hs⟩
    exact ⟨f, ⟨hf, ha, hs⟩, rfl⟩

/-- C1: the claim states that a rule whose resolved forbidden set is
empty compiles to a matcher that never fires.  The code violates this:
an empty forbidden set yields the empty regex string, `Regex::new("")`
matches the empty string at every position, and `find_iter` then emits
one empty-span match per position.  At the failing input — guard `a`,
allow-list `[a]`, corpus `{a}` (forbidden set resolved empty) and unit
text `"x"` — the compiled rule produces two Violations (with empty
`ref_ns`, at offsets 0 and 1) instead of zero, and the run's exit status
becomes 1. -/
theorem c1_empty_forbidden_set_fires_everywhere :
    c1Rule.forbidden_namespaces [c1File] = [] ∧
    Rule.compile c1Rule [c1File] = some { nsp := c1Rule.nsp, checker := [[]] } ∧
    (Rule.compile c1Rule [c1File]).map
      (fun cr => ((cr.apply c1File "x".data Report.new).violations.map
        (fun v => (v.ref_ns, v.ref_location)))) =
      some [([], (0, 0)), ([], (1, 0))] ∧
    (Rule.compile c1Rule [c1File]).map
      (fun cr => (cr.apply c1File "x".data Report.new).exit_status) = some 1 := by
  refine ⟨by decide, by decide, by decide, by decide⟩

/-- C4: for a match at byte span [st, en) the violation's context window
starts immediately after the 5th line break counted backward from `st`
(that is, the window start is positive only when the character before it
is a line break and exactly 4 line breaks lie between it and `st`; it is
0 when at most 4 line breaks precede `st`) and ends at the 5th line
break counted forward from `en` (a line break with exactly 4 line breaks
between `en` and it; it is the text length when at most 4 line breaks
follow).  The span recorded in the Violation built by the scanner is
exactly this window; neither the scanner nor the violation constructor
takes the CLI `context_lines` option, which the program parses but never
reads. -/
theorem c4_context_window (file : ClojureSourceFile) (code : List Char)
    (st en : Nat) (h1 : st ≤ code.length) (h2 : en ≤ code.length) :
    ((snippet_start code st = 0 ∧ (code.take st).count '\n' ≤ 4) ∨
      (0 < snippet_start code st ∧ snippet_start code st ≤ st ∧
        code.getD (snippet_start code st - 1) ' ' = '\n' ∧
        ((code.take st).drop (snippet_start code st)).count '\n' = 4)) ∧
    ((snippet_end code en = code.length ∧ (code.drop en).count '\n' ≤ 4) ∨
      (snippet_end code en < code.length ∧ en ≤ snippet_end code en ∧
        code.getD (snippet_end code en) ' ' = '\n' ∧
        ((code.drop en).take (snippet_end code en - en)).count '\n' = 4)) ∧
    (mkViolation file code st en).snippet =
      (snippet_start code st, snippet_end code en - snippet_start code st) := by
  have hlen : (code.take st).length = st := by
    simp [List.length_take]
    omega
  refine ⟨?_, ?_, rfl⟩
  · cases hns : nthNewline 4 (code.take st).reverse with
    | none =>
      left
      constructor
      · simp [snippet_start, hns]
      · have := nthNewline_none 4 _ hns
        rwa [List.count_reverse] at this
    | some j =>
      right
      obtain ⟨hj1, hj2, hj3⟩ := nthNewline_some 4 _ j hns
      rw [List.length_reverse, hlen] at hj1
      have ha : snippet_start code st = st - j := by
        simp only [snippet_start, hns, hlen]
        omega
      refine ⟨by omega, by omega, ?_, ?_⟩
      · have hrev : (code.take st).reverse.getD j ' ' =
            (code.take st).getD (st - 1 - j) ' ' := by
          rw [List.getD_eq_getElem?_getD, List.getD_eq_getElem?_getD]
          rw [List.getElem?_reverse (by rw [hlen]; omega), hlen]
        have htake : (code.take st).getD (st - 1 - j) ' ' =
            code.getD (st - 1 - j) ' ' := by
          rw [List.getD_eq_getElem?_getD, List.getD_eq_getElem?_getD,
            List.getElem?_take]
          rw [if_pos (by omega)]
        rw [ha]
        have : st - j - 1 = st - 1 - j := by omega
        rw [this, ← htake, ← hrev, hj2]
      · have hrevtake : (code.take st).reverse.take j =
            ((code.take st).drop (st - j)).reverse := by
          rw [List.take_reverse, hlen]
        rw [ha, ← List.count_reverse '\n' ((code.take st).drop (st - j)),
          ← hrevtake, hj3]
  · cases hne : nthNewline 4 (code.drop en) with
    | none =>
      left
      constructor
      · simp [snippet_end, hne]
      · exact nthNewline_none 4 _ hne
    | some i =>
      right
      obtain ⟨hi1, hi2, hi3⟩ := nthNewline_some 4 _ i hne
      rw [List.length_drop] at hi1
      have hb : snippet_end code en = i + en := by
        simp [snippet_end, hne]
      refine ⟨by omega, by omega, ?_, ?_⟩
      · have hdrop : (code.drop en).getD i ' ' = code.getD (en + i) ' ' := by
          rw [List.getD_eq_getElem?_getD, List.getD_eq_getElem?_getD,
            List.getElem?_drop]
        rw [hb, Nat.add_comm i en, ← hdrop]
        exact hi2
      · have : snippet_end code en - en = i := by omega
        rw [this, hi3]

/-- `Regex::new` either succeeds, panics, or leaves the modelled
fragment; it never reports a validation error of `from_str`. -/
theorem regexNewOutcome_ne_err (x : Except ParseErr Regex) :
    regexNewOutcome x ≠ .err := by
  cases x with
  | ok r => simp [regexNewOutcome]
  | error e => cases e <;> simp [regexNewOutcome]

/-- C5: for every source unit the orchestrator's rule loop acts with
exactly the first declared rule whose guard matches the unit's
namespace (later matching rules are never consulted), and a unit whose
namespace matches no rule's guard leaves the report completely
unchanged — no violation, no warning, no error. -/
theorem c5_first_match_wins (read : List Char → Except (List Char) (List Char))
    (rules : List CompiledRule) (file : ClojureSourceFile) (report : Report) :
    (processFile read rules file report =
      match rules.find? (fun r => r.matches file.nsOf) with
      | none => report
      | some r => applyMatchedRule read r file report) ∧
    (rules.find? (fun r => r.matches file.nsOf) = none →
      processFile read rules file report = report) ∧
    (∀ rest : List ClojureSourceFile,
      apply_rules read rules (file :: rest) report =
        apply_rules read rules rest (processFile read rules file report)) := by
  refine ⟨processFile_eq_find read rules file report, ?_, ?_⟩
  · intro h
    rw [processFile_eq_find, h]
  · intro rest
    rfl

/-- C6: rule compilation never puts a namespace matching the rule's own
guard, or any allow-list pattern, into the forbidden set; a corpus
namespace is forbidden exactly when it matches neither the guard nor any
allow pattern. -/
theorem c6_forbidden_excludes_guard_and_allow (rule : Rule)
    (files : List ClojureSourceFile) :
    (∀ ns, ns ∈ rule.forbidden_namespaces files ↔
      ∃ f ∈ files, f.nsOf = ns ∧
        rule.allow.any (fun a => a.matches ns) = false ∧
        rule.nsp.matches ns = false) ∧
    (∀ ns, rule.nsp.matches ns = true →
      ns ∉ rule.forbidden_namespaces files) ∧
    (∀ ns, rule.allow.any (fun a => a.matches ns) = true →
      ns ∉ rule.forbidden_namespaces files) := by
  refine ⟨fun ns => mem_forbidden_iff rule files ns, ?_, ?_⟩
  · intro ns hmatch hmem
    rw [mem_forbidden_iff] at hmem
    obtain ⟨f, hf, rfl, ha, hs⟩ := hmem
    rw [hmatch] at hs
    cases hs
  · intro ns hallow hmem
    rw [mem_forbidden_iff] at hmem
    obtain ⟨f, hf, rfl, ha, hs⟩ := hmem
    rw [hallow] at ha
    cases ha

/-- C7 (counterexample): the claim says pattern compilation succeeds for
every string of allowed namespace characters other than the three
validation failures.  The string `+a` consists of allowed namespace
characters and passes all three validation checks, yet compilation does
not succeed: the generated regex text `+a` starts with a repetition
operator, `Regex::new` rejects it and the `.expect("valid regex")` call
aborts the program. -/
theorem c7_counterexample :
    NamespaceMatcher.from_str "+a".data = .panic ∧
    "+a".data.all isNsClassChar = true ∧
    "+a".data ≠ [] ∧
    "+a".data.contains ' ' = false ∧
    "+a".data.head? ≠ some '.' ∧
    "+a".data.getLast? ≠ some '.' := by
  refine ⟨by decide, by decide, by decide, by decide, by decide, by decide⟩

/-- C7 (amended): pattern compilation returns a validation error exactly
when the pattern string is empty, contains a space, or starts or ends
with `.` (in particular it fails for the five strings of the claim); a
well-formed pattern such as `a.b*.c` compiles; but a string of allowed
namespace characters whose generated regex text is itself invalid — such
as `+a`, whose leading `+` has nothing to repeat — makes the program
panic inside `Regex::new(..).expect(..)` rather than succeed or return
an error. -/
theorem c7_error_iff_validation :
    (∀ s : List Char, NamespaceMatcher.from_str s = .err ↔
      (s = [] ∨ s.contains ' ' = true ∨ s.head? = some '.' ∨
        s.getLast? = some '.')) ∧
    NamespaceMatcher.from_str "".data = .err ∧
    NamespaceMatcher.from_str ".".data = .err ∧
    NamespaceMatcher.from_str ".a".data = .err ∧
    NamespaceMatcher.from_str "a.".data = .err ∧
    NamespaceMatcher.from_str "a b".data = .err ∧
    NamespaceMatcher.from_str "a.b*.c".data =
      .ok [[RElem.lit 'a', RElem.lit '.', RElem.lit 'b', RElem.clsPlus true,
        RElem.lit '.', RElem.lit 'c']] ∧
    NamespaceMatcher.from_str "+a".data = .panic := by
  refine ⟨?_, by decide, by decide, by decide, by decide, by decide,
    by decide, by decide⟩
  intro s
  constructor
  · intro h
    simp only [NamespaceMatcher.from_str] at h
    split_ifs at h with hA hB hC
    · exact Or.inl hA
    · exact Or.inr (Or.inl hB)
    · simp only [Bool.or_eq_true, decide_eq_true_eq] at hC
      rcases hC with hC | hC
      · exact Or.inr (Or.inr (Or.inl hC))
      · exact Or.inr (Or.inr (Or.inr hC))
    · exact absurd h (regexNewOutcome_ne_err _)
  · intro h
    simp only [NamespaceMatcher.from_str]
    split_ifs with hA hB hC
    · rfl
    · rfl
    · rfl
    · exfalso
      simp only [Bool.or_eq_true, decide_eq_true_eq, not_or] at hC
      rcases h with rfl | h | h | h
      · exact hA rfl
      · exact hB h
      · exact hC.1 h
      · exact hC.2 h

/-- C2 (counterexample): the claim says the compiled matcher is anchored
and in particular that the plain pattern `a.b*.c` does not match
`a.bar.cx`.  The program compiles patterns without anchors and tests
them with `Regex::is_match` (substring search), so the pattern fires on
`a.bar.cx` through its substring `a.bar.c`. -/
theorem c2_counterexample :
    NamespaceMatcher.from_str "a.b*.c".data =
      .ok [[RElem.lit 'a', RElem.lit '.', RElem.lit 'b', RElem.clsPlus true,
        RElem.lit '.', RElem.lit 'c']] ∧
    NamespaceMatcher.matches
      [[RElem.lit 'a', RElem.lit '.', RElem.lit 'b', RElem.clsPlus true,
        RElem.lit '.', RElem.lit 'c']] "a.bar.cx".data = true := by
  refine ⟨by decide, by decide⟩

/-- C2 (amended): the compiled namespace matcher is an UNANCHORED
substring search.  For every non-wildcard pattern string N (of
metacharacter-free namespace characters), `compile(N).matches(M)` holds
iff N occurs as a substring of M — so `compile(N).matches(N)` is true,
but `matches(M)` is also true for every M containing N, not only M = N.
For the plain pattern `a.b*.c`: it matches `a.bar.c` and `a.bx.c`, does
not match `a.b.c.d`, and (contrary to the original claim) does match
`a.bar.cx`. -/
theorem c2_unanchored_substring_matching :
    (∀ N : List Char, N ≠ [] → (∀ c ∈ N, isLitSafeDot c = true) →
      N.head? ≠ some '.' → N.getLast? ≠ some '.' →
      NamespaceMatcher.from_str N = .ok [N.map RElem.lit] ∧
      (∀ M, NamespaceMatcher.matches [N.map RElem.lit] M = true ↔ N <:+: M)) ∧
    NamespaceMatcher.matches
      [[RElem.lit 'a', RElem.lit '.', RElem.lit 'b', RElem.clsPlus true,
        RElem.lit '.', RElem.lit 'c']] "a.bar.c".data = true ∧
    NamespaceMatcher.matches
      [[RElem.lit 'a', RElem.lit '.', RElem.lit 'b', RElem.clsPlus true,
        RElem.lit '.', RElem.lit 'c']] "a.bx.c".data = true ∧
    NamespaceMatcher.matches
      [[RElem.lit 'a', RElem.lit '.', RElem.lit 'b', RElem.clsPlus true,
        RElem.lit '.', RElem.lit 'c']] "a.b.c.d".data = false ∧
    NamespaceMatcher.matches
      [[RElem.lit 'a', RElem.lit '.', RElem.lit 'b', RElem.clsPlus true,
        RElem.lit '.', RElem.lit 'c']] "a.bar.cx".data = true := by
  refine ⟨?_, by decide, by decide, by decide, by decide⟩
  intro N hne hall hhead hlast
  refine ⟨from_str_plain N hne hall hhead hlast, ?_⟩
  intro M
  exact lits_isMatch_iff N M

/-- C3 (counterexample): the claim says the recursive pattern `a.b.*`
matches a namespace exactly when it consists of the prefix `a.b`
followed by at least one further segment.  The matcher is unanchored:
`za.b.c` does not start with the prefix `a.b` yet the pattern fires on
it. -/
theorem c3_counterexample :
    NamespaceMatcher.from_str "a.b.*".data =
      .ok [[RElem.lit 'a', RElem.lit '.', RElem.lit 'b', RElem.lit '.',
        RElem.clsPlus false]] ∧
    NamespaceMatcher.matches
      [[RElem.lit 'a', RElem.lit '.', RElem.lit 'b', RElem.lit '.',
        RElem.clsPlus false]] "za.b.c".data = true ∧
    ¬ ("a.b".data <+: "za.b.c".data) := by
  refine ⟨by decide, by decide, by decide⟩

/-- C3 (amended): for a recursive pattern `P.*` (star-free safe prefix
P), the compiled matcher fires on M exactly when M CONTAINS the prefix
followed by a dot and at least one further namespace character — an
unanchored containment, not an exact decomposition of M.  It never
matches the bare prefix itself, and on the claim's examples: `a.b.*`
matches `a.b.c` and `a.b.c.d`, does not match `a.b` or `x.b.c`. -/
theorem c3_recursive_pattern_semantics :
    (∀ P : List Char, P ≠ [] → (∀ c ∈ P, isLitSafeDot c = true) →
      P.head? ≠ some '.' →
      NamespaceMatcher.from_str (P ++ ['.', '*']) =
        .ok [P.map RElem.lit ++ [RElem.lit '.', RElem.clsPlus false]] ∧
      (∀ M, NamespaceMatcher.matches
          [P.map RElem.lit ++ [RElem.lit '.', RElem.clsPlus false]] M = true ↔
        ∃ pre c suf, M = pre ++ P ++ '.' :: c :: suf ∧ isNsClassChar c = true) ∧
      NamespaceMatcher.matches
        [P.map RElem.lit ++ [RElem.lit '.', RElem.clsPlus false]] P = false) ∧
    NamespaceMatcher.matches
      [[RElem.lit 'a', RElem.lit '.', RElem.lit 'b', RElem.lit '.',
        RElem.clsPlus false]] "a.b.c".data = true ∧
    NamespaceMatcher.matches
      [[RElem.lit 'a', RElem.lit '.', RElem.lit 'b', RElem.lit '.',
        RElem.clsPlus false]] "a.b.c.d".data = true ∧
    NamespaceMatcher.matches
      [[RElem.lit 'a', RElem.lit '.', RElem.lit 'b', RElem.lit '.',
        RElem.clsPlus false]] "a.b".data = false ∧
    NamespaceMatcher.matches
      [[RElem.lit 'a', RElem.lit '.', RElem.lit 'b', RElem.lit '.',
        RElem.clsPlus false]] "x.b.c".data = false := by
  refine ⟨?_, by decide, by decide, by decide, by decide⟩
  intro P hne hall hhead
  have hchar : ∀ M, NamespaceMatcher.matches
      [P.map RElem.lit ++ [RElem.lit '.', RElem.clsPlus false]] M = true ↔
      ∃ pre c suf, M = pre ++ P ++ '.' :: c :: suf ∧ isNsClassChar c = true := by
    intro M
    have h0 := lits_cls_isMatch_iff (P ++ ['.']) M
    have hmap : (P ++ ['.']).map RElem.lit =
        P.map RElem.lit ++ [RElem.lit '.'] := by simp
    rw [hmap, List.append_assoc] at h0
    simp only [List.cons_append, List.nil_append] at h0
    rw [NamespaceMatcher.matches]
    rw [h0]
    constructor
    · rintro ⟨pre, c, suf, hM, hc⟩
      refine ⟨pre, c, suf, ?_, hc⟩
      rw [hM]
      simp [List.append_assoc]
    · rintro ⟨pre, c, suf, hM, hc⟩
      refine ⟨pre, c, suf, ?_, hc⟩
      rw [hM]
      simp [List.append_assoc]
  refine ⟨from_str_recursive P hne hall hhead, hchar, ?_⟩
  by_contra hmatch
  simp only [Bool.not_eq_false] at hmatch
  rw [hchar P] at hmatch
  obtain ⟨pre, c, suf, hP, _⟩ := hmatch
  have := congrArg List.length hP
  simp only [List.length_append, List.length_cons] at this
  omega

/-- C8: when reading a matched unit's text fails, the run records the
read-failure warning, counts the unit as skipped, adds no violation, and
continues with the remaining units; the exit status is a function of the
violations alone (0 exactly when there are none). -/
theorem c8_read_failure_degrades_gracefully
    (read : List Char → Except (List Char) (List Char))
    (rules : List CompiledRule) (file : ClojureSourceFile) (rep : Report)
    (r : CompiledRule) (e : List Char)
    (hfind : rules.find? (fun r => r.matches file.nsOf) = some r)
    (hread : read file.path = .error e) :
    (processFile read rules file rep).violations = rep.violations ∧
    (processFile read rules file rep).warnings =
      rep.warnings ++ [readFailMsg file e] ∧
    (processFile read rules file rep).files_skipped = rep.files_skipped + 1 ∧
    (processFile read rules file rep).rules_matched = rep.rules_matched + 1 ∧
    (∀ rest, apply_rules read rules (file :: rest) rep =
      apply_rules read rules rest (processFile read rules file rep)) ∧
    (∀ rep1 rep2 : Report, rep1.violations = rep2.violations →
      rep1.exit_status = rep2.exit_status) ∧
    ((processFile read rules file rep).exit_status = 0 ↔
      rep.violations = []) := by
  have hpf : processFile read rules file rep =
      ((rep.rule_matched).file_skipped (readFailMsg file e)) := by
    rw [processFile_eq_find, hfind]
    simp [applyMatchedRule, hread]
  have hcong : ∀ rep1 rep2 : Report, rep1.violations = rep2.violations →
      rep1.exit_status = rep2.exit_status := by
    intro rep1 rep2 h
    simp [Report.exit_status, h]
  refine ⟨?_, ?_, ?_, ?_, ?_, hcong, ?_⟩
  · rw [hpf]; rfl
  · rw [hpf]; rfl
  · rw [hpf]; rfl
  · rw [hpf]; rfl
  · intro rest; rfl
  · rw [hpf]
    simp [Report.exit_status, Report.file_skipped, Report.rule_matched,
      List.isEmpty_iff]

/-- C9: a rule whose `:restrict-to` vector resolves to an empty
allow-list parses to `None`, is never added to the rule list (so it is
never compiled and cannot affect scanning), and the configuration loop
instead surfaces a warning that quotes the dropped rule's guard
pattern. -/
theorem c9_empty_allow_list_rule_dropped (pat : List Char)
    (m : NamespaceMatcher) (ruleMap : List (List Char × Edn))
    (rules : List Rule) (rep : Report)
    (hm : NamespaceMatcher.from_str pat = .ok m)
    (hrt : ednLookup ":restrict-to".data ruleMap = some (.vector [])) :
    parse_rule pat ruleMap = .parsed none ∧
    handleRuleForm pat ruleMap rules rep =
      .stepped rules (rep.warn (noEffectMsg pat)) ∧
    (rep.warn (noEffectMsg pat)).warnings = rep.warnings ++ [noEffectMsg pat] ∧
    pat <:+: noEffectMsg pat := by
  have hpr : parse_rule pat ruleMap = .parsed none := by
    simp [parse_rule, hm, hrt, parseAllowList]
  refine ⟨hpr, ?_, rfl, ?_⟩
  · simp [handleRuleForm, hpr]
  · refine ⟨"the rule for ".data ++ [quoteChar],
      [quoteChar] ++ " has no effect".data, ?_⟩
    simp [noEffectMsg, List.append_assoc]

/-- C10 (counterexample): the claim says that for a forbidden namespace
free of regex metacharacters (other than `.`) the scanner finds exactly
the literal occurrences.  `find_iter` reports non-overlapping matches
only: for the forbidden namespace `aa` (no metacharacters at all) the
text `aaa` contains literal occurrences at offsets 0 and 1, but the
scanner reports only the one at offset 0. -/
theorem c10_counterexample :
    compileChecker ["aa".data] = .ok [[RElem.lit 'a', RElem.lit 'a']] ∧
    findIter [[RElem.lit 'a', RElem.lit 'a']] "aaa".data = [(0, 2)] ∧
    "aa".data <+: ("aaa".data.drop 1) ∧
    "aa".data.all isLitSafe = true := by
  refine ⟨by decide, by decide, by decide, by decide⟩

/-- C10 (amended): only `.` is escaped when the forbidden-reference
regex is built.  A forbidden namespace whose characters are free of
regex metacharacters other than `.` (alphanumerics, `-` `_` `!` `%` `&`
`=` `<` `>` and `.`) compiles to its literal-character regex, which
fires on a text exactly when the text contains the namespace literally
(individual occurrences are then reported left-to-right without
overlap).  A namespace containing a true regex metacharacter such as
`+` is instead interpreted as regex syntax: the checker for `a+b` fires
on `aab`, which does not contain `a+b`, and never fires on the literal
text `a+b` itself. -/
theorem c10_escaping_and_literal_matching :
    (∀ ns : List Char, (∀ c ∈ ns, isLitSafeDot c = true) →
      compileChecker [ns] = .ok [ns.map RElem.lit] ∧
      (∀ code, isMatch [ns.map RElem.lit] code = true ↔ ns <:+: code)) ∧
    escapeDots "a&b+c.d".data = "a&b+c\\.d".data ∧
    compileChecker ["a&b".data] =
      .ok [[RElem.lit 'a', RElem.lit '&', RElem.lit 'b']] ∧
    compileChecker ["a+b".data] =
      .ok [[RElem.plusLit 'a', RElem.lit 'b']] ∧
    isMatch [[RElem.plusLit 'a', RElem.lit 'b']] "aab".data = true ∧
    ¬ ("a+b".data <:+: "aab".data) ∧
    isMatch [[RElem.plusLit 'a', RElem.lit 'b']] "a+b".data = false ∧
    "a+b".data <:+: "a+b".data := by
  refine ⟨?_, by decide, by decide, by decide, by decide, by decide,
    by decide, by decide⟩
  intro ns hall
  have hnobar : ∀ x ∈ escapeDots ns, x ≠ '|' := by
    intro x hx hbar
    rcases mem_escapeDots ns x hx with h | h
    · rw [hbar] at h; cases h
    · have := hall x h
      rw [hbar] at this
      simp [isLitSafeDot, isLitSafe] at this
  have hjoin : (([ns] : List (List Char)).intersperse "|".data).flatten = ns := by
    simp
  constructor
  · simp only [compileChecker, hjoin]
    rw [parseRegex_single _ hnobar]
    have h0 := parseSeq_escaped_lits ns hall [] []
    rw [List.append_nil] at h0
    rw [h0, parseSeq_nil]
    simp
  · intro code
    exact lits_isMatch_iff ns code

/-- Witness for C2 at the concrete pattern `x` and candidate `axb`. -/
theorem c2_unanchored_substring_matching_witness :
    NamespaceMatcher.from_str "x".data = .ok [[RElem.lit 'x']] ∧
    (NamespaceMatcher.matches [[RElem.lit 'x']] "axb".data = true ↔
      "x".data <:+: "axb".data) := by
  have h := c2_unanchored_substring_matching.1 "x".data (by decide)
    (by decide) (by decide) (by decide)
  exact ⟨h.1, h.2 "axb".data⟩

/-- Witness for C3 at the concrete recursive pattern `a.*`. -/
theorem c3_recursive_pattern_semantics_witness :
    NamespaceMatcher.from_str "a.*".data =
      .ok [[RElem.lit 'a', RElem.lit '.', RElem.clsPlus false]] ∧
    NamespaceMatcher.matches
      [[RElem.lit 'a', RElem.lit '.', RElem.clsPlus false]] "a".data = false := by
  have h := c3_recursive_pattern_semantics.1 "a".data (by decide)
    (by decide) (by decide)
  exact ⟨h.1, h.2.2⟩

/-- Witness for C4 at the concrete text `a\nb`, span [2, 3). -/
theorem c4_context_window_witness :
    ((snippet_start "a\nb".data 2 = 0 ∧
        ("a\nb".data.take 2).count '\n' ≤ 4) ∨
      (0 < snippet_start "a\nb".data 2 ∧ snippet_start "a\nb".data 2 ≤ 2 ∧
        "a\nb".data.getD (snippet_start "a\nb".data 2 - 1) ' ' = '\n' ∧
        (("a\nb".data.take 2).drop (snippet_start "a\nb".data 2)).count '\n' = 4)) ∧
    ((snippet_end "a\nb".data 3 = "a\nb".data.length ∧
        ("a\nb".data.drop 3).count '\n' ≤ 4) ∨
      (snippet_end "a\nb".data 3 < "a\nb".data.length ∧
        3 ≤ snippet_end "a\nb".data 3 ∧
        "a\nb".data.getD (snippet_end "a\nb".data 3) ' ' = '\n' ∧
        (("a\nb".data.drop 3).take (snippet_end "a\nb".data 3 - 3)).count '\n' = 4)) ∧
    (mkViolation c1File "a\nb".data 2 3).snippet =
      (snippet_start "a\nb".data 2, snippet_end "a\nb".data 3 - snippet_start "a\nb".data 2) :=
  c4_context_window c1File "a\nb".data 2 3 (by decide) (by decide)

/-- Witness for C5: with no rules, a unit is left unscanned and the
report is unchanged. -/
theorem c5_first_match_wins_witness :
    processFile (fun _ => Except.error ([] : List Char)) [] c1File Report.new =
      Report.new :=
  (c5_first_match_wins (fun _ => Except.error ([] : List Char)) [] c1File
    Report.new).2.1 rfl

/-- Witness for C6: the namespace `a` matches the guard of `c1Rule`, so
it is never forbidden. -/
theorem c6_forbidden_excludes_guard_and_allow_witness :
    "a".data ∉ c1Rule.forbidden_namespaces [c1File] :=
  (c6_forbidden_excludes_guard_and_allow c1Rule [c1File]).2.1 "a".data
    (by decide)

/-- Witness for C7 at the concrete pattern `.`. -/
theorem c7_error_iff_validation_witness :
    NamespaceMatcher.from_str ".".data = .err ↔
      (".".data = [] ∨ ".".data.contains ' ' = true ∨
        ".".data.head? = some '.' ∨ ".".data.getLast? = some '.') :=
  c7_error_iff_validation.1 ".".data

/-- Witness for C8 at a concrete failing read. -/
theorem c8_read_failure_degrades_gracefully_witness :
    (processFile (fun _ => Except.error "io".data)
      [{ nsp := [[RElem.lit 'a']], checker := [[RElem.lit 'z']] }] c1File
      Report.new).warnings =
      Report.new.warnings ++ [readFailMsg c1File "io".data] :=
  (c8_read_failure_degrades_gracefully (fun _ => Except.error "io".data)
    [{ nsp := [[RElem.lit 'a']], checker := [[RElem.lit 'z']] }] c1File
    Report.new { nsp := [[RElem.lit 'a']], checker := [[RElem.lit 'z']] }
    "io".data (by decide) rfl).2.1

/-- Witness for C9 at a concrete rule body with an empty
`:restrict-to` vector. -/
theorem c9_empty_allow_list_rule_dropped_witness :
    parse_rule "a".data [(":restrict-to".data, Edn.vector [])] =
      .parsed none :=
  (c9_empty_allow_list_rule_dropped "a".data [[RElem.lit 'a']]
    [(":restrict-to".data, Edn.vector [])] [] Report.new (by decide) rfl).1

/-- Witness for C10 at the concrete forbidden namespace `a&b`. -/
theorem c10_escaping_and_literal_matching_witness :
    compileChecker ["a&b".data] =
      .ok [[RElem.lit 'a', RElem.lit '&', RElem.lit 'b']] ∧
    (isMatch [[RElem.lit 'a', RElem.lit '&', RElem.lit 'b']] "xa&by".data = true ↔
      "a&b".data <:+: "xa&by".data) := by
  have h := c10_escaping_and_literal_matching.1 "a&b".data (by decide)
  exact ⟨h.1, h.2 "xa&by".data⟩
